import Mathlib

/-!
Verification of the keying capture, classification and scoring engine of
`Example_Code/morse_tutor.py` (repository MorseCodePi).

Shallow embedding conventions:
* Python floats (all timing constants and durations) are modelled as exact
  rationals `ℚ`.
* The sampled key signal is modelled as a function `sig : ℕ → Bool` giving the
  (already debounced) pressed state at each polling tick; one tick corresponds
  to one pass of a polling loop, i.e. `POLL_DT` seconds, and timestamps are
  tick indices (so a duration in seconds is `(ticks) * POLL_DT`).
* The unbounded `while True` capture loop of `record_keying` is given an
  explicit fuel (a bound on the number of loop iterations); fuel exhaustion
  yields `none`, every return of the Python routine yields `some`.
* The sidetone callback-hook side effects of `record_keying` (a try/finally
  around mutable `keyer.when_pressed` / `keyer.when_released` hooks) are
  modelled separately as an explicit state transformer over every exit path
  (normal return, timeout, fault), since the pure timing model cannot raise.
-/

/-- CONFIG constant `UNIT = 0.12` (seconds per dot unit). -/
def UNIT : ℚ := 12 / 100

/-- CONFIG constant `START_KEY_TIMEOUT = 8.0` (seconds to start keying). -/
def START_KEY_TIMEOUT : ℚ := 8

/-- CONFIG constant `END_IDLE_UNITS = 3.0` (units of silence ending the attempt). -/
def END_IDLE_UNITS : ℚ := 3

/-- CONFIG constant `DOT_DASH_CUTOFF = 2.5 * UNIT`. -/
def DOT_DASH_CUTOFF : ℚ := 5 / 2 * UNIT

/-- CONFIG constant `POLL_DT = 0.001` (1 ms sampling). -/
def POLL_DT : ℚ := 1 / 1000

/-- CONFIG constant `MIN_PRESS = 0.03` (ignore ultra-short presses). -/
def MIN_PRESS : ℚ := 3 / 100

/-- CONFIG constant `SIDETONE_ENABLED = True`. -/
def SIDETONE_ENABLED : Bool := true

/-- Python's `sep.join(pieces)` (used with `"\n"` and `" "` in the source). -/
def join_with (sep : String) : List String → String
  | [] => ""
  | [x] => x
  | x :: y :: ys => x ++ sep ++ join_with sep (y :: ys)

/-- Source `morse_pretty`: `code.replace(".", "·").replace("-", "−")`.
Both replacements are single-character substitutions, so the sequential
`str.replace` chain is the character-wise map below. -/
def morse_pretty (code : String) : String :=
  ⟨code.data.map (fun c => if c = '.' then '·' else if c = '-' then '−' else c)⟩

/-- Source `morse_words`: `" ".join("DOT" if s == "." else "DASH" for s in code)`. -/
def morse_words (code : String) : String :=
  join_with " " (code.data.map (fun s => if s = '.' then "DOT" else "DASH"))

/-- Number of polling-loop iterations a wait with the given timeout performs:
the loop body runs once for every tick count `k ≥ 0` whose elapsed time
`k * POLL_DT` is still strictly below `timeout_s` (`while time.monotonic() - t0
< timeout_s`), i.e. `⌈timeout_s / POLL_DT⌉` iterations. -/
def ticksOf (timeout_s : ℚ) : ℕ :=
  (-(Int.fdiv (-(timeout_s / POLL_DT).num) ((timeout_s / POLL_DT).den : ℤ))).toNat

/-- Common polling loop of `wait_for_press_edge` / `wait_for_release_edge`:
starting from the previous sample `prev` at tick `t`, report the first tick at
which the sample equals `target` while the previous sample did not (for a
press edge `target = true`: `cur and not prev`; for a release edge
`target = false`: `(not cur) and prev`), or `none` once `fuel` iterations
have run. -/
def waitEdgeAux (target : Bool) (sig : ℕ → Bool) : Bool → ℕ → ℕ → Option ℕ
  | _, _, 0 => none
  | prev, t, fuel + 1 =>
    if sig t = target ∧ prev = !target then some t
    else waitEdgeAux target sig (sig t) (t + 1) fuel

/-- Source `wait_for_press_edge(timeout_s)`: samples from tick `t0` (the call
instant), with `prev` initialised to the sample at entry, and returns the tick
of the first rising transition, or `none` on timeout. -/
def wait_for_press_edge (sig : ℕ → Bool) (t0 : ℕ) (timeoutTicks : ℕ) : Option ℕ :=
  waitEdgeAux true sig (sig t0) t0 timeoutTicks

/-- Source `wait_for_release_edge(timeout_s=10.0)`: first falling transition
from tick `t0`, or `none` on timeout. -/
def wait_for_release_edge (sig : ℕ → Bool) (t0 : ℕ) (timeout_s : ℚ := 10) : Option ℕ :=
  waitEdgeAux false sig (sig t0) t0 (ticksOf timeout_s)

/-- Source line 175: `sym = "." if dur < DOT_DASH_CUTOFF else "-"`. -/
def classify (dur : ℚ) : Char :=
  if dur < DOT_DASH_CUTOFF then '.' else '-'

/-- Body of the `while True` loop of `record_keying`, carrying the current
press tick and the accumulated `captured` symbols and `durations`.  One unit
of fuel is one loop iteration; `none` means fuel ran out (the Python loop is
unbounded), `some` is a return of the routine. -/
def recordLoop (sig : ℕ → Bool) : ℕ → ℕ → List Char → List ℚ → Option (String × List ℚ)
  | 0, _, _, _ => none
  | fuel + 1, tPress, captured, durations =>
    match wait_for_release_edge sig tPress with
    | none => some (⟨captured⟩, durations)
    | some tRelease =>
      let dur : ℚ := ((tRelease : ℚ) - (tPress : ℚ)) * POLL_DT
      let acc :=
        if dur < MIN_PRESS then (captured, durations)
        else (captured ++ [classify dur], durations ++ [dur])
      match wait_for_press_edge sig tRelease (ticksOf (END_IDLE_UNITS * UNIT)) with
      | none => some (⟨acc.1⟩, acc.2)
      | some tNext => recordLoop sig fuel tNext acc.1 acc.2

/-- Source `record_keying()`: wait for the first press edge within
`START_KEY_TIMEOUT` (returning `("", [])` if none occurs), then run the
capture loop.  Returns `(captured_symbols, press_durations_seconds_list)`. -/
def record_keying (sig : ℕ → Bool) (fuel : ℕ) : Option (String × List ℚ) :=
  match wait_for_press_edge sig 0 (ticksOf START_KEY_TIMEOUT) with
  | none => some ("", [])
  | some tPress => recordLoop sig fuel tPress [] []

/-- Floor of a rational, written out explicitly so that it evaluates by kernel
reduction. -/
def qfloor (x : ℚ) : ℤ :=
  Int.fdiv x.num (x.den : ℤ)

/-- Round a rational to the nearest integer, ties to even — the rounding Python
`format(x, ".1f")` applies to the (here exactly represented) value. -/
def round_half_even (x : ℚ) : ℤ :=
  let n := qfloor x
  if x - (n : ℚ) < 1 / 2 then n
  else if (1 : ℚ) / 2 < x - (n : ℚ) then n + 1
  else if n % 2 = 0 then n else n + 1

/-- Python's `f"{x:.1f}"` on the exact rational value `x`: one digit after the
decimal point, rounding half to even. -/
def format_1dp (x : ℚ) : String :=
  let n := round_half_even (x * 10)
  let m := n.natAbs
  let s := toString (m / 10) ++ "." ++ toString (m % 10)
  if n < 0 then "-" ++ s else s

/-- Source `units_str(seconds)`: `f"{seconds/UNIT:.1f}u"`. -/
def units_str (seconds : ℚ) : String :=
  format_1dp (seconds / UNIT) ++ "u"

/-- First index (0-based) at which the two sequences differ, scanning only the
common prefix — the `for i in range(min(len(expected), len(got)))` loop of
`compare_attempt`. -/
def firstMismatch : List Char → List Char → Option ℕ
  | a :: as, b :: bs =>
    if a ≠ b then some 0 else (firstMismatch as bs).map (· + 1)
  | _, _ => none

/-- Mismatch hint line of `compare_attempt` (source line 234):
`f"❌ Mismatch at symbol #{mismatch+1} (expected {expected[mismatch]} got {got[mismatch]})"`. -/
def mismatch_line (expected got : String) (i : ℕ) : String :=
  "❌ Mismatch at symbol #" ++ toString (i + 1) ++ " (expected "
    ++ String.singleton (expected.data.getD i ' ') ++ " got "
    ++ String.singleton (got.data.getD i ' ') ++ ")"

/-- Length-mismatch line of `compare_attempt` (source line 236):
`f"❌ Length mismatch (expected {len(expected)} symbols, got {len(got)})"`. -/
def length_mismatch_line (expected got : String) : String :=
  "❌ Length mismatch (expected " ++ toString expected.length
    ++ " symbols, got " ++ toString got.length ++ ")"

/-- The `lines` list built by `compare_attempt` for a non-empty attempt. -/
def report_lines (expected got : String) (durations : List ℚ) : List String :=
  ["Expected: " ++ expected,
   "Pretty  : " ++ morse_pretty expected,
   "Words   : " ++ morse_words expected,
   "Got     : " ++ got,
   "GotPretty: " ++ morse_pretty got,
   "GotWords: " ++ morse_words got,
   "Presses : " ++ join_with " " (durations.map units_str)]

/-- Source `compare_attempt(expected, got, durations) -> (bool, str)`. -/
def compare_attempt (expected got : String) (durations : List ℚ) : Bool × String :=
  if got = "" then
    (false,
      "Expected: " ++ expected ++ "\n"
        ++ "Pretty  : " ++ morse_pretty expected ++ "\n"
        ++ "Words   : " ++ morse_words expected ++ "\n"
        ++ "❌ No keying detected.")
  else if got = expected then
    (true, join_with "\n" (report_lines expected got durations ++ ["✅ Correct!"]))
  else
    match firstMismatch expected.data got.data with
    | some i =>
      (false, join_with "\n" (report_lines expected got durations
        ++ [mismatch_line expected got i]))
    | none =>
      (false, join_with "\n" (report_lines expected got durations
        ++ [length_mismatch_line expected got]))

/-- Does `hay` start with `needle`? (helper for the substring predicate used to
state report-content claims). -/
def beginsWith : List Char → List Char → Bool
  | [], _ => true
  | _ :: _, [] => false
  | a :: as, b :: bs => (a == b) && beginsWith as bs

/-- Does `needle` occur contiguously inside `hay`? -/
def listContains : List Char → List Char → Bool
  | [], needle => beginsWith needle []
  | c :: t, needle => beginsWith needle (c :: t) || listContains t needle

/-- Substring predicate on strings, used to state what a report contains. -/
def containsStr (hay needle : String) : Prop :=
  listContains hay.data needle.data = true

instance containsStr.instDecidable (hay needle : String) : Decidable (containsStr hay needle) :=
  decidable_of_iff (listContains hay.data needle.data = true) Iff.rfl

/-- Callback values that can sit in the `keyer.when_pressed` /
`keyer.when_released` hooks: the two sidetone closures installed by
`enable_sidetone`, or any other handler. -/
inductive HookFn
  | sidetone_on
  | sidetone_off
  | other (n : ℕ)
deriving DecidableEq

/-- Mutable state touched by the sidetone machinery of `record_keying`: the two
callback hooks of the `keyer` Button and the buzzer line. -/
structure TutorState where
  when_pressed : Option HookFn
  when_released : Option HookFn
  buzzer_on : Bool
deriving DecidableEq

/-- Source `enable_sidetone()`: saves the previous hooks, installs the
sidetone closures, forces the buzzer off, and returns the saved pair. -/
def enable_sidetone (s : TutorState) : (Option HookFn × Option HookFn) × TutorState :=
  ((s.when_pressed, s.when_released),
   { when_pressed := some HookFn.sidetone_on,
     when_released := some HookFn.sidetone_off,
     buzzer_on := false })

/-- Source `restore_key_callbacks(prev_pressed, prev_released)`. -/
def restore_key_callbacks (prev_pressed prev_released : Option HookFn)
    (_s : TutorState) : TutorState :=
  { when_pressed := prev_pressed, when_released := prev_released,
    buzzer_on := false }

/-- How the body of `record_keying` between `try` and `finally` can exit: a
normal return (including the start-timeout early return), a release-timeout
break, or an unexpected fault. -/
inductive ExitPath
  | normal
  | timeout
  | fault
deriving DecidableEq

/-- Hook-state effect of `record_keying()`: `prev_pressed = prev_released =
None`; if `SIDETONE_ENABLED`, `enable_sidetone()` saves the hooks; the body
never touches the hooks on any exit path; the `finally` block restores the
saved hooks only when `SIDETONE_ENABLED and prev_pressed is not None`, and
otherwise merely forces the buzzer off. -/
def record_keying_hooks (ex : ExitPath) (s : TutorState) : TutorState :=
  let saved :=
    if SIDETONE_ENABLED then enable_sidetone s else ((none, none), s)
  let prev_pressed := saved.1.1
  let prev_released := saved.1.2
  let s1 := saved.2
  let s2 :=
    match ex with
    | ExitPath.normal => s1
    | ExitPath.timeout => s1
    | ExitPath.fault => s1
  if SIDETONE_ENABLED = true ∧ prev_pressed ≠ none then
    restore_key_callbacks prev_pressed prev_released s2
  else
    { s2 with buzzer_on := false }

/-- Concrete input stream: one press held from tick 1 to tick 50 (50 ms), then
idle forever. -/
def sigOnePress : ℕ → Bool := fun n => decide (1 ≤ n ∧ n ≤ 50)

/-- Concrete input stream: pressed from tick 1 on and never released (a stuck
key). -/
def sigStuck : ℕ → Bool := fun n => decide (1 ≤ n)

/-- Concrete input stream: never pressed. -/
def sigIdle : ℕ → Bool := fun _ => false

/-- Polling wait returns `none` when the signal never takes the target value
from the start tick on. -/
theorem waitEdgeAux_eq_none (target : Bool) (sig : ℕ → Bool) :
    ∀ (fuel : ℕ) (prev : Bool) (t0 : ℕ), (∀ t, t0 ≤ t → sig t ≠ target) →
      waitEdgeAux target sig prev t0 fuel = none := by
  intro fuel
  induction fuel with
  | zero => intro prev t0 _; rfl
  | succ n ih =>
    intro prev t0 h
    simp only [waitEdgeAux]
    rw [if_neg]
    · exact ih (sig t0) (t0 + 1) (fun t ht => h t (Nat.le_of_succ_le ht))
    · rintro ⟨h1, _⟩
      exact h t0 le_rfl h1

/-- `wait_for_press_edge` times out on a stream that is never pressed from the
start tick on. -/
theorem wait_for_press_edge_eq_none (sig : ℕ → Bool) (t0 ticks : ℕ)
    (h : ∀ t, t0 ≤ t → sig t ≠ true) :
    wait_for_press_edge sig t0 ticks = none :=
  waitEdgeAux_eq_none true sig ticks (sig t0) t0 h

/-- `wait_for_release_edge` times out on a stream that is never released from
the start tick on. -/
theorem wait_for_release_edge_eq_none (sig : ℕ → Bool) (t0 : ℕ) (timeout_s : ℚ)
    (h : ∀ t, t0 ≤ t → sig t ≠ false) :
    wait_for_release_edge sig t0 timeout_s = none :=
  waitEdgeAux_eq_none false sig (ticksOf timeout_s) (sig t0) t0 h

theorem beginsWith_append_self : ∀ (l t : List Char), beginsWith l (l ++ t) = true := by
  intro l
  induction l with
  | nil => intro t; rfl
  | cons a as ih =>
    intro t
    simp only [List.cons_append, beginsWith, Bool.and_eq_true, beq_self_eq_true, true_and]
    exact ih t

theorem beginsWith_append_right : ∀ (n h t : List Char),
    beginsWith n h = true → beginsWith n (h ++ t) = true := by
  intro n
  induction n with
  | nil => intro h t _; rfl
  | cons a as ih =>
    intro h t hb
    cases h with
    | nil => exact absurd hb (by simp [beginsWith])
    | cons b bs =>
      simp only [beginsWith, Bool.and_eq_true] at hb
      simp only [List.cons_append, beginsWith, Bool.and_eq_true]
      exact ⟨hb.1, ih bs t hb.2⟩

theorem listContains_nil : ∀ hay : List Char, listContains hay [] = true := by
  intro hay
  cases hay with
  | nil => rfl
  | cons c t => simp [listContains, beginsWith]

theorem listContains_append_self :
    ∀ (s needle t : List Char), listContains (s ++ (needle ++ t)) needle = true := by
  intro s
  induction s with
  | nil =>
    intro needle t
    cases needle with
    | nil => simpa using listContains_nil t
    | cons a as =>
      show (beginsWith (a :: as) (a :: (as ++ t)) || listContains (as ++ t) (a :: as)) = true
      rw [Bool.or_eq_true]
      exact Or.inl (beginsWith_append_self (a :: as) t)
  | cons c s' ih =>
    intro needle t
    show (beginsWith needle (c :: (s' ++ (needle ++ t)))
      || listContains (s' ++ (needle ++ t)) needle) = true
    rw [ih needle t, Bool.or_true]

/-- A contiguous occurrence witnessed by an explicit split. -/
theorem listContains_of_split (hay needle s t : List Char)
    (h : hay = s ++ (needle ++ t)) : listContains hay needle = true := by
  subst h
  exact listContains_append_self s needle t

theorem listContains_self (l : List Char) : listContains l l = true :=
  listContains_of_split l l [] [] (by simp)

theorem listContains_append_left : ∀ (s t needle : List Char),
    listContains t needle = true → listContains (s ++ t) needle = true := by
  intro s
  induction s with
  | nil => intro t needle h; simpa using h
  | cons c s' ih =>
    intro t needle h
    show (beginsWith needle (c :: (s' ++ t)) || listContains (s' ++ t) needle) = true
    rw [ih t needle h, Bool.or_true]

theorem listContains_append_right : ∀ (s t needle : List Char),
    listContains s needle = true → listContains (s ++ t) needle = true := by
  intro s
  induction s with
  | nil =>
    intro t needle h
    cases needle with
    | nil => simpa using listContains_nil t
    | cons a as => exact absurd h (by simp [listContains, beginsWith])
  | cons c s' ih =>
    intro t needle h
    replace h : (beginsWith needle (c :: s') || listContains s' needle) = true := h
    show (beginsWith needle (c :: (s' ++ t)) || listContains (s' ++ t) needle) = true
    rw [Bool.or_eq_true]
    cases hb : beginsWith needle (c :: s') with
    | true => exact Or.inl (beginsWith_append_right needle (c :: s') t hb)
    | false =>
      rw [hb, Bool.false_or] at h
      exact Or.inr (ih t needle h)

/-- Anything contained in one of the joined pieces is contained in the join. -/
theorem join_with_contains (sep : String) :
    ∀ (ls : List String) (x : String), x ∈ ls →
      ∀ needle : List Char, listContains x.data needle = true →
        listContains (join_with sep ls).data needle = true := by
  intro ls
  induction ls with
  | nil => intro x hx; exact absurd hx (List.not_mem_nil x)
  | cons a as ih =>
    intro x hx needle hn
    cases as with
    | nil =>
      rcases List.mem_singleton.mp hx with rfl
      exact hn
    | cons b bs =>
      rcases List.mem_cons.mp hx with rfl | hx'
      · simp only [join_with, String.data_append]
        exact listContains_append_right _ _ _ (listContains_append_right _ _ _ hn)
      · simp only [join_with, String.data_append]
        exact listContains_append_left (a.data ++ sep.data) _ _ (ih x hx' needle hn)

/-- The index reported by `firstMismatch` is in range for both sequences,
points at differing symbols, and is the first such index. -/
theorem firstMismatch_some : ∀ (l1 l2 : List Char) (i : ℕ),
    firstMismatch l1 l2 = some i →
      i < l1.length ∧ i < l2.length ∧ l1.getD i ' ' ≠ l2.getD i ' ' ∧
        ∀ j, j < i → l1.getD j ' ' = l2.getD j ' ' := by
  intro l1
  induction l1 with
  | nil => intro l2 i h; cases l2 <;> exact absurd h (by simp [firstMismatch])
  | cons a as ih =>
    intro l2 i h
    cases l2 with
    | nil => exact absurd h (by simp [firstMismatch])
    | cons b bs =>
      by_cases hab : a = b
      · rw [firstMismatch, if_neg (by simpa using hab)] at h
        rcases Option.map_eq_some'.mp h with ⟨i', hi', rfl⟩
        obtain ⟨h1, h2, h3, h4⟩ := ih bs i' hi'
        refine ⟨Nat.succ_lt_succ h1, Nat.succ_lt_succ h2, by simpa using h3, ?_⟩
        intro j hj
        cases j with
        | zero => simpa using hab
        | succ j' =>
          simp only [List.getD_cons_succ]
          exact h4 j' (Nat.lt_of_succ_lt_succ hj)
      · rw [firstMismatch, if_pos (by simpa using hab)] at h
        cases h
        exact ⟨Nat.succ_pos _, Nat.succ_pos _, by simpa using hab, by intro j hj; omega⟩

/-- When `firstMismatch` finds nothing the two sequences agree on their whole
common prefix, so equal lengths force equality. -/
theorem firstMismatch_none : ∀ (l1 l2 : List Char),
    firstMismatch l1 l2 = none → l1.length = l2.length → l1 = l2 := by
  intro l1
  induction l1 with
  | nil =>
    intro l2 h hlen
    cases l2 with
    | nil => rfl
    | cons b bs => exact absurd hlen (by simp)
  | cons a as ih =>
    intro l2 h hlen
    cases l2 with
    | nil => exact absurd hlen (by simp)
    | cons b bs =>
      by_cases hab : a = b
      · rw [firstMismatch, if_neg (by simpa using hab)] at h
        rw [hab, ih bs (Option.map_eq_none'.mp h) (by simpa using hlen)]
      · rw [firstMismatch, if_pos (by simpa using hab)] at h
        cases h

/-- Loop invariant lemma for `recordLoop`: any property of the accumulated
`(captured, durations)` pair preserved by appending a classified press of
duration at least `MIN_PRESS` holds of every returned result. -/
theorem recordLoop_invariant (P : List Char → List ℚ → Prop)
    (hstep : ∀ cap durs d, P cap durs → MIN_PRESS ≤ d →
      P (cap ++ [classify d]) (durs ++ [d]))
    (sig : ℕ → Bool) :
    ∀ (fuel tPress : ℕ) (cap : List Char) (durs : List ℚ) (got : String) (res : List ℚ),
      P cap durs → recordLoop sig fuel tPress cap durs = some (got, res) →
      P got.data res := by
  intro fuel
  induction fuel with
  | zero => intro tPress cap durs got res _ h; exact absurd h (by simp [recordLoop])
  | succ n ih =>
    intro tPress cap durs got res hP h
    rw [recordLoop] at h
    cases h1 : wait_for_release_edge sig tPress 10 with
    | none =>
      rw [h1] at h
      simp only [Option.some.injEq, Prod.mk.injEq] at h
      obtain ⟨rfl, rfl⟩ := h
      exact hP
    | some tRelease =>
      rw [h1] at h
      simp only at h
      by_cases hd : ((tRelease : ℚ) - (tPress : ℚ)) * POLL_DT < MIN_PRESS
      · rw [if_pos hd] at h
        cases h2 : wait_for_press_edge sig tRelease (ticksOf (END_IDLE_UNITS * UNIT)) with
        | none =>
          rw [h2] at h
          simp only [Option.some.injEq, Prod.mk.injEq] at h
          obtain ⟨rfl, rfl⟩ := h
          exact hP
        | some tNext =>
          rw [h2] at h
          exact ih tNext cap durs got res hP h
      · rw [if_neg hd] at h
        have hP' := hstep cap durs (((tRelease : ℚ) - (tPress : ℚ)) * POLL_DT) hP
          (le_of_not_lt hd)
        cases h2 : wait_for_press_edge sig tRelease (ticksOf (END_IDLE_UNITS * UNIT)) with
        | none =>
          rw [h2] at h
          simp only [Option.some.injEq, Prod.mk.injEq] at h
          obtain ⟨rfl, rfl⟩ := h
          exact hP'
        | some tNext =>
          rw [h2] at h
          exact ih tNext _ _ got res hP' h

/-- Consequence of the loop invariant at the `record_keying` level: the
returned pair satisfies any property that holds of the empty accumulators and
is preserved by appending a classified press of duration at least
`MIN_PRESS`. -/
theorem record_keying_invariant (P : List Char → List ℚ → Prop)
    (hnil : P [] [])
    (hstep : ∀ cap durs d, P cap durs → MIN_PRESS ≤ d →
      P (cap ++ [classify d]) (durs ++ [d]))
    (sig : ℕ → Bool) (fuel : ℕ) (got : String) (res : List ℚ)
    (h : record_keying sig fuel = some (got, res)) : P got.data res := by
  rw [record_keying] at h
  cases h1 : wait_for_press_edge sig 0 (ticksOf START_KEY_TIMEOUT) with
  | none =>
    rw [h1] at h
    simp only [Option.some.injEq, Prod.mk.injEq] at h
    obtain ⟨rfl, rfl⟩ := h
    exact hnil
  | some tPress =>
    rw [h1] at h
    exact recordLoop_invariant P hstep sig fuel tPress [] [] got res hnil h

theorem containsStr_of_split (hay needle : String) (s t : List Char)
    (h : hay.data = s ++ (needle.data ++ t)) : containsStr hay needle :=
  listContains_of_split hay.data needle.data s t h

/-- C3: classification yields a dot (short) exactly when the duration is
strictly below `DOT_DASH_CUTOFF`; the boundary duration `DOT_DASH_CUTOFF`
itself classifies as a dash (long); `classify` is a pure function of the
duration alone. -/
theorem classify_short_iff_lt_cutoff :
    (∀ d : ℚ, classify d = '.' ↔ d < DOT_DASH_CUTOFF) ∧
      classify DOT_DASH_CUTOFF = '-' := by
  constructor
  · intro d
    unfold classify
    by_cases h : d < DOT_DASH_CUTOFF
    · rw [if_pos h]
      exact ⟨fun _ => h, fun _ => rfl⟩
    · rw [if_neg h]
      exact ⟨fun hc => absurd hc (by decide), fun hlt => absurd hlt h⟩
  · rw [classify, if_neg (lt_irrefl _)]

/-- C8: when no press edge occurs within the start timeout, `record_keying`
returns the empty decoded sequence paired with the empty duration list, as a
normal `some` return (fuel plays no role on this path). -/
theorem record_keying_start_timeout_empty (sig : ℕ → Bool) (fuel : ℕ)
    (h : wait_for_press_edge sig 0 (ticksOf START_KEY_TIMEOUT) = none) :
    record_keying sig fuel = some ("", []) := by
  rw [record_keying, h]

theorem record_keying_start_timeout_empty_witness :
    wait_for_press_edge sigIdle 0 (ticksOf START_KEY_TIMEOUT) = none ∧
      record_keying sigIdle 0 = some ("", []) :=
  have h : wait_for_press_edge sigIdle 0 (ticksOf START_KEY_TIMEOUT) = none :=
    wait_for_press_edge_eq_none sigIdle 0 _ (fun t _ => by simp [sigIdle])
  ⟨h, record_keying_start_timeout_empty sigIdle 0 h⟩

/-- C9: when a press is followed by no release edge within the release
timeout, the capture loop emits no symbol and no duration for that press,
ends, and returns exactly the symbols and durations accumulated from earlier
complete presses. -/
theorem record_keying_stuck_key_returns_accumulated (sig : ℕ → Bool)
    (fuel tPress : ℕ) (captured : List Char) (durations : List ℚ)
    (h : wait_for_release_edge sig tPress = none) :
    recordLoop sig (fuel + 1) tPress captured durations
      = some (⟨captured⟩, durations) := by
  rw [recordLoop, h]

theorem record_keying_stuck_key_returns_accumulated_witness :
    wait_for_release_edge sigStuck 1 = none ∧
      recordLoop sigStuck 1 1 ['.'] [1 / 20] = some (⟨['.']⟩, [1 / 20]) :=
  have h : wait_for_release_edge sigStuck 1 = none :=
    wait_for_release_edge_eq_none sigStuck 1 10 (fun t ht => by simp [sigStuck, ht])
  ⟨h, record_keying_stuck_key_returns_accumulated sigStuck 0 1 ['.'] [1 / 20] h⟩

/-- C4: in any result of `record_keying`, every recorded duration is at least
`MIN_PRESS` (sub-threshold presses are excluded from both the decoded
sequence and the duration list), and the decoded length counts exactly the
retained presses. -/
theorem record_keying_min_press_filter (sig : ℕ → Bool) (fuel : ℕ)
    (got : String) (durs : List ℚ)
    (h : record_keying sig fuel = some (got, durs)) :
    (∀ d ∈ durs, MIN_PRESS ≤ d) ∧ got.length = durs.length := by
  refine record_keying_invariant
    (fun cap ds => (∀ d ∈ ds, MIN_PRESS ≤ d) ∧ cap.length = ds.length)
    ⟨by simp, rfl⟩ ?_ sig fuel got durs h
  intro cap ds d hP hd
  refine ⟨?_, by simp [hP.2]⟩
  intro x hx
  rcases List.mem_append.mp hx with hx | hx
  · exact hP.1 x hx
  · rcases List.mem_singleton.mp hx with rfl
    exact hd

theorem record_keying_min_press_filter_witness :
    record_keying sigOnePress 1 = some (".", [1 / 20]) ∧
      ((∀ d ∈ ([1 / 20] : List ℚ), MIN_PRESS ≤ d) ∧
        ("." : String).length = ([1 / 20] : List ℚ).length) :=
  have h : record_keying sigOnePress 1 = some (".", [1 / 20]) := by decide!
  ⟨h, record_keying_min_press_filter sigOnePress 1 "." [1 / 20] h⟩

/-- C10: any result of `record_keying` has decoded sequence and duration list
of equal length, and the symbol stored at each position is a dot exactly when
the duration recorded at that position is below `DOT_DASH_CUTOFF`. -/
theorem record_keying_pointwise_classified (sig : ℕ → Bool) (fuel : ℕ)
    (got : String) (durs : List ℚ)
    (h : record_keying sig fuel = some (got, durs)) :
    got.length = durs.length ∧
      ∀ (i : ℕ) (h1 : i < got.data.length) (h2 : i < durs.length),
        (got.data.get ⟨i, h1⟩ = '.' ↔ durs.get ⟨i, h2⟩ < DOT_DASH_CUTOFF) := by
  have hF : List.Forall₂ (fun c d => c = '.' ↔ d < DOT_DASH_CUTOFF) got.data durs := by
    refine record_keying_invariant _ List.Forall₂.nil ?_ sig fuel got durs h
    intro cap ds d hP _
    refine List.rel_append hP (List.Forall₂.cons ?_ List.Forall₂.nil)
    unfold classify
    by_cases hd : d < DOT_DASH_CUTOFF
    · rw [if_pos hd]
      exact ⟨fun _ => hd, fun _ => rfl⟩
    · rw [if_neg hd]
      exact ⟨fun hc => absurd hc (by decide), fun hlt => absurd hlt hd⟩
  exact ⟨hF.length_eq, fun i h1 h2 => hF.get h1 h2⟩

theorem record_keying_pointwise_classified_witness :
    record_keying sigOnePress 1 = some (".", [1 / 20]) ∧
      (("." : String).length = ([1 / 20] : List ℚ).length ∧
        ∀ (i : ℕ) (h1 : i < ("." : String).data.length)
          (h2 : i < ([1 / 20] : List ℚ).length),
          (("." : String).data.get ⟨i, h1⟩ = '.'
            ↔ ([1 / 20] : List ℚ).get ⟨i, h2⟩ < DOT_DASH_CUTOFF)) :=
  have h : record_keying sigOnePress 1 = some (".", [1 / 20]) := by decide!
  ⟨h, record_keying_pointwise_classified sigOnePress 1 "." [1 / 20] h⟩

/-- C2 (the code violates the claim): starting from unset callback hooks
(`when_pressed = when_released = None`, the state the shipped program is
actually in, since nothing else ever sets them), `record_keying` does not
restore the prior hook state on any exit path: the `finally` guard
`SIDETONE_ENABLED and prev_pressed is not None` skips
`restore_key_callbacks` exactly when the saved hook is `None`, leaving the
sidetone closures installed. -/
theorem record_keying_hooks_unset_prior_not_restored (ex : ExitPath) :
    (record_keying_hooks ex ⟨none, none, false⟩).when_pressed
        = some HookFn.sidetone_on ∧
      (record_keying_hooks ex ⟨none, none, false⟩).when_released
        = some HookFn.sidetone_off ∧
      (record_keying_hooks ex ⟨none, none, false⟩).when_pressed
        ≠ (⟨none, none, false⟩ : TutorState).when_pressed := by
  cases ex <;> exact ⟨rfl, rfl, by decide⟩

/-- Shape of the report for a non-empty attempt: the seven `lines` always
appear, followed by one verdict line. -/
theorem compare_attempt_report_eq (e g : String) (ds : List ℚ) (hg : g ≠ "") :
    ∃ v : String, (compare_attempt e g ds).2
      = join_with "\n" (report_lines e g ds ++ [v]) := by
  unfold compare_attempt
  rw [if_neg hg]
  by_cases he : g = e
  · rw [if_pos he]
    exact ⟨"✅ Correct!", rfl⟩
  · rw [if_neg he]
    cases hm : firstMismatch e.data g.data with
    | some i => exact ⟨mismatch_line e g i, rfl⟩
    | none => exact ⟨length_mismatch_line e g, rfl⟩

/-- C7: on an empty decoded sequence `compare_attempt` fails, its report notes
that no keying was detected, and the report still contains the expected
sequence. -/
theorem compare_attempt_no_keying_reported (e : String) (ds : List ℚ) :
    (compare_attempt e "" ds).1 = false ∧
      containsStr (compare_attempt e "" ds).2 "❌ No keying detected." ∧
      containsStr (compare_attempt e "" ds).2 e := by
  unfold compare_attempt
  rw [if_pos rfl]
  refine ⟨rfl, ?_, ?_⟩
  · exact containsStr_of_split _ _
      (("Expected: " ++ e ++ "\n" ++ "Pretty  : " ++ morse_pretty e ++ "\n"
        ++ "Words   : " ++ morse_words e ++ "\n").data) [] (by simp)
  · exact containsStr_of_split _ _ ("Expected: ".data)
      (("\n" ++ "Pretty  : " ++ morse_pretty e ++ "\n" ++ "Words   : "
        ++ morse_words e ++ "\n" ++ "❌ No keying detected.").data) (by simp)

/-- C6: a non-empty decoded sequence exactly equal to the expected sequence
passes, whatever the duration list contains. -/
theorem compare_attempt_exact_match_passes (e : String) (ds : List ℚ)
    (he : e ≠ "") : (compare_attempt e e ds).1 = true := by
  unfold compare_attempt
  rw [if_neg he, if_pos rfl]

theorem compare_attempt_exact_match_passes_witness :
    ("." : String) ≠ "" ∧ (compare_attempt "." "." [1 / 2]).1 = true :=
  ⟨by decide, compare_attempt_exact_match_passes "." [1 / 2] (by decide)⟩

/-- C5: for a non-empty decoded sequence different from the expected one,
`compare_attempt` fails and reports either the first differing position of
the common prefix (1-based, naming both symbols) or, when the whole common
prefix agrees, a length mismatch naming both counts (and then the lengths do
differ). -/
theorem compare_attempt_first_mismatch_report (e g : String) (ds : List ℚ)
    (hg : g ≠ "") (hne : g ≠ e) :
    (compare_attempt e g ds).1 = false ∧
      ((∃ i, firstMismatch e.data g.data = some i ∧
          e.data.getD i ' ' ≠ g.data.getD i ' ' ∧
          (∀ j, j < i → e.data.getD j ' ' = g.data.getD j ' ') ∧
          containsStr (compare_attempt e g ds).2 (mismatch_line e g i)) ∨
        (firstMismatch e.data g.data = none ∧ e.length ≠ g.length ∧
          containsStr (compare_attempt e g ds).2 (length_mismatch_line e g))) := by
  obtain ⟨v, hv⟩ := compare_attempt_report_eq e g ds hg
  have hpass : (compare_attempt e g ds).1 = false := by
    unfold compare_attempt
    rw [if_neg hg, if_neg hne]
    cases hm : firstMismatch e.data g.data <;> rfl
  refine ⟨hpass, ?_⟩
  have hverd : ∀ w : String, (compare_attempt e g ds).2
      = join_with "\n" (report_lines e g ds ++ [w]) →
      containsStr (compare_attempt e g ds).2 w := by
    intro w hw
    rw [hw]
    exact join_with_contains "\n" _ w
      (List.mem_append_right _ (List.mem_singleton_self w)) w.data
      (listContains_self w.data)
  cases hm : firstMismatch e.data g.data with
  | some i =>
    obtain ⟨_, _, h3, h4⟩ := firstMismatch_some e.data g.data i hm
    refine Or.inl ⟨i, rfl, h3, h4, ?_⟩
    refine hverd (mismatch_line e g i) ?_
    unfold compare_attempt
    rw [if_neg hg, if_neg hne, hm]
  | none =>
    refine Or.inr ⟨rfl, ?_, ?_⟩
    · intro hlen
      exact hne (String.ext (firstMismatch_none e.data g.data hm hlen)).symm
    · refine hverd (length_mismatch_line e g) ?_
      unfold compare_attempt
      rw [if_neg hg, if_neg hne, hm]

theorem compare_attempt_first_mismatch_report_witness :
    (".." : String) ≠ "" ∧ (".." : String) ≠ "-." ∧
      ((compare_attempt "-." ".." []).1 = false ∧
        ((∃ i, firstMismatch ("-." : String).data (".." : String).data = some i ∧
            ("-." : String).data.getD i ' ' ≠ (".." : String).data.getD i ' ' ∧
            (∀ j, j < i →
              ("-." : String).data.getD j ' ' = (".." : String).data.getD j ' ') ∧
            containsStr (compare_attempt "-." ".." []).2 (mismatch_line "-." ".." i)) ∨
          (firstMismatch ("-." : String).data (".." : String).data = none ∧
            ("-." : String).length ≠ (".." : String).length ∧
            containsStr (compare_attempt "-." ".." []).2
              (length_mismatch_line "-." "..")))) :=
  ⟨by decide, by decide,
    compare_attempt_first_mismatch_report "-." ".." [] (by decide) (by decide)⟩

/-- C1 (counterexample): at expected `"-"`, empty decoded sequence and the
one-element duration list `[0.12]`, the report of `compare_attempt` does not
contain the duration list rendered in unit multiples (`"1.0u"`): the
no-keying report has no `Presses` line, so the claim fails as stated. -/
theorem compare_attempt_report_contents_counterexample :
    ¬ (containsStr (compare_attempt "-" "" [12 / 100]).2 "-" ∧
        containsStr (compare_attempt "-" "" [12 / 100]).2 "" ∧
        containsStr (compare_attempt "-" "" [12 / 100]).2
          (join_with " " (([12 / 100] : List ℚ).map units_str))) := by
  decide!

/-- C1 (amended): whenever the decoded sequence is non-empty, or the duration
list is empty, the report of `compare_attempt` contains the expected
sequence, the decoded sequence and the duration list rendered in unit
multiples; (when the decoded sequence is empty the report omits the
`Presses` duration line but still shows the expected sequence). -/
theorem compare_attempt_report_contents (e g : String) (ds : List ℚ)
    (h : g ≠ "" ∨ ds = []) :
    containsStr (compare_attempt e g ds).2 e ∧
      containsStr (compare_attempt e g ds).2 g ∧
      containsStr (compare_attempt e g ds).2 (join_with " " (ds.map units_str)) := by
  by_cases hg : g = ""
  · have hds : ds = [] := by
      rcases h with h | h
      · exact absurd hg h
      · exact h
    subst hg hds
    unfold compare_attempt
    rw [if_pos rfl]
    refine ⟨?_, ?_, ?_⟩
    · exact containsStr_of_split _ _ ("Expected: ".data)
        (("\n" ++ "Pretty  : " ++ morse_pretty e ++ "\n" ++ "Words   : "
          ++ morse_words e ++ "\n" ++ "❌ No keying detected.").data) (by simp)
    · exact listContains_nil _
    · exact listContains_nil _
  · obtain ⟨v, hv⟩ := compare_attempt_report_eq e g ds hg
    rw [hv]
    have hmem : ∀ x ∈ report_lines e g ds, ∀ needle : List Char,
        listContains x.data needle = true →
        listContains (join_with "\n" (report_lines e g ds ++ [v])).data needle
          = true := by
      intro x hx needle hn
      exact join_with_contains "\n" _ x (List.mem_append_left _ hx) needle hn
    refine ⟨?_, ?_, ?_⟩
    · exact hmem ("Expected: " ++ e) (by simp [report_lines]) e.data
        (listContains_of_split _ _ ("Expected: ".data) [] (by simp))
    · exact hmem ("Got     : " ++ g) (by simp [report_lines]) g.data
        (listContains_of_split _ _ ("Got     : ".data) [] (by simp))
    · exact hmem ("Presses : " ++ join_with " " (ds.map units_str))
        (by simp [report_lines]) (join_with " " (ds.map units_str)).data
        (listContains_of_split _ _ ("Presses : ".data) [] (by simp))

theorem compare_attempt_report_contents_witness :
    ((("." : String) ≠ "") ∨ ([12 / 100] : List ℚ) = []) ∧
      (containsStr (compare_attempt "-" "." [12 / 100]).2 "-" ∧
        containsStr (compare_attempt "-" "." [12 / 100]).2 "." ∧
        containsStr (compare_attempt "-" "." [12 / 100]).2
          (join_with " " (([12 / 100] : List ℚ).map units_str))) :=
  ⟨Or.inl (by decide),
    compare_attempt_report_contents "-" "." [12 / 100] (Or.inl (by decide))⟩
